import Mathlib

/-!
Shallow embedding of the ETS CAN sniffer core, translated from
src/src/main_wifi.cpp and from the serial variant (src/unnamed/part_000):
the bounded identifier table (findOrAddId), the circular event log with a
monotonic sequence counter (addToLog, addMarkToLog, handleLog, handleCSV,
handleClear), the baud-rate scan classifier (handleScan, autoScan), and the
operator-facing handlers (handleBaud, handleMark, serial commands).
Machine integers are modelled as Nat; the floating point scores of the scan
are modelled in exact rational arithmetic.
-/

/-! Identifier table, from findOrAddId in main_wifi.cpp lines 114 to 131.
The table is the list of live records: seenIds, idCounts and lastData
restricted to indices below uniqueIdCount, in insertion order. -/

def MAX_UNIQUE_IDS : Nat := 256

def zeros8 : List Nat := List.replicate 8 0

structure IdRecord where
  identifier : Nat
  occurrences : Nat
  lastPayload : List Nat
deriving DecidableEq

/-- Effect of memcpy of the first dlc bytes of data over an 8 byte buffer. -/
def updPayload (old data : List Nat) (dlc : Nat) : List Nat :=
  data.take dlc ++ old.drop dlc

/-- The linear scan of findOrAddId over the records already present: at the
first record whose identifier matches, bump occurrences and overwrite the
first dlc payload bytes; none when no record matches. Also returns the
index of the matched record. -/
def updateMatch (id : Nat) (data : List Nat) (dlc : Nat) :
    List IdRecord → Option (List IdRecord × Nat)
  | [] => none
  | r :: rs =>
    if r.identifier = id then
      some ({ identifier := r.identifier, occurrences := r.occurrences + 1,
              lastPayload := updPayload r.lastPayload data dlc } :: rs, 0)
    else
      match updateMatch id data dlc rs with
      | some (rs2, i) => some (r :: rs2, i + 1)
      | none => none

inductive RecordResult where
  | index (i : Nat)
  | full
deriving DecidableEq

/-- findOrAddId of main_wifi.cpp: update the first matching record, else
insert a fresh record when below capacity, else report a full table
(the C code returns -1). A fresh slot of the global lastData array holds
zero bytes, so the insert copies dlc bytes over zeros. -/
def findOrAddId (id : Nat) (data : List Nat) (dlc : Nat) (tbl : List IdRecord) :
    List IdRecord × RecordResult :=
  match updateMatch id data dlc tbl with
  | some (tbl2, i) => (tbl2, .index i)
  | none =>
    if tbl.length < MAX_UNIQUE_IDS then
      (tbl ++ [{ identifier := id, occurrences := 1,
                 lastPayload := updPayload zeros8 data dlc }], .index tbl.length)
    else (tbl, .full)

structure RecordCall where
  id : Nat
  data : List Nat
  dlc : Nat
deriving DecidableEq

/-- The table after a sequence of record calls starting from the state after
a reset (uniqueIdCount equal to zero). -/
def runTable (calls : List RecordCall) : List IdRecord :=
  calls.foldl (fun tbl c => (findOrAddId c.id c.data c.dlc tbl).1) []

/-- Number of record calls carrying a given identifier. -/
def countId (calls : List RecordCall) (id : Nat) : Nat :=
  calls.countP (fun c => c.id == id)

/-- Invariant tying a table to the history of record calls that produced it. -/
def tableInv (hist : List RecordCall) (tbl : List IdRecord) : Prop :=
  tbl.length ≤ MAX_UNIQUE_IDS ∧
  tbl.Pairwise (fun a b => a.identifier ≠ b.identifier) ∧
  (∀ r ∈ tbl, r.occurrences = countId hist r.identifier) ∧
  (tbl.length < MAX_UNIQUE_IDS →
    ∀ id, (∀ r ∈ tbl, r.identifier ≠ id) → countId hist id = 0)

/-! Event log, from main_wifi.cpp: the ring buffer logBuffer with logHead,
logCount and the process-wide counter nextSeq. -/

def LOG_BUFFER_SIZE : Nat := 500

structure LogEntry where
  timestamp : Nat
  seq : Nat
  id : Nat
  extended : Bool
  rtr : Bool
  dlc : Nat
  data : List Nat
  isMark : Bool
  markText : List Nat
deriving DecidableEq

def defEntry : LogEntry :=
  { timestamp := 0, seq := 0, id := 0, extended := false, rtr := false,
    dlc := 0, data := zeros8, isMark := false, markText := [] }

structure EventLog where
  buffer : Nat → LogEntry
  head : Nat
  count : Nat
  nextSeq : Nat

/-- Write one entry at the head slot, advance the head modulo the capacity
and cap the retained count, exactly as addToLog and addMarkToLog both do. -/
def pushLog (e : LogEntry) (lg : EventLog) : EventLog :=
  { buffer := fun j => if j = lg.head then e else lg.buffer j
    head := (lg.head + 1) % LOG_BUFFER_SIZE
    count := if lg.count < LOG_BUFFER_SIZE then lg.count + 1 else lg.count
    nextSeq := lg.nextSeq }

/-- An append request: a captured frame or an operator annotation. The
timestamp parameter stands for the millis reading at the call. -/
inductive LogReq where
  | capture (now id : Nat) (ext rtr : Bool) (dlc : Nat) (data : List Nat)
  | mark (now : Nat) (text : List Nat)
deriving DecidableEq

/-- The entry a request stores, given the sequence number assigned to it.
addToLog copies the full 8 byte receive buffer and zeroes markText;
addMarkToLog stores at most 39 text bytes (strncpy with bound 39 followed
by a forced terminator at index 39). -/
def entryOf (r : LogReq) (seq : Nat) : LogEntry :=
  match r with
  | .capture now id ext rtr dlc data =>
    { timestamp := now, seq := seq, id := id, extended := ext, rtr := rtr,
      dlc := dlc, data := data, isMark := false, markText := [] }
  | .mark now text =>
    { timestamp := now, seq := seq, id := 0, extended := false, rtr := false,
      dlc := 0, data := zeros8, isMark := true, markText := text.take 39 }

/-- addToLog of main_wifi.cpp lines 134 to 148. -/
def addToLog (now id : Nat) (ext rtr : Bool) (dlc : Nat) (data : List Nat)
    (lg : EventLog) : EventLog :=
  pushLog (entryOf (.capture now id ext rtr dlc data) lg.nextSeq)
    { lg with nextSeq := lg.nextSeq + 1 }

/-- addMarkToLog of main_wifi.cpp lines 151 to 169, log effect only. -/
def addMarkToLog (now : Nat) (text : List Nat) (lg : EventLog) : EventLog :=
  pushLog (entryOf (.mark now text) lg.nextSeq)
    { lg with nextSeq := lg.nextSeq + 1 }

def applyReq (r : LogReq) (lg : EventLog) : EventLog :=
  match r with
  | .capture now id ext rtr dlc data => addToLog now id ext rtr dlc data lg
  | .mark now text => addMarkToLog now text lg

def processAll (rs : List LogReq) (lg : EventLog) : EventLog :=
  rs.foldl (fun l r => applyReq r l) lg

/-- Forward walk of count slots starting at idx, wrapping modulo the
capacity; the common reading loop of handleLog and handleCSV. -/
def readFrom (buf : Nat → LogEntry) (idx : Nat) : Nat → List LogEntry
  | 0 => []
  | n + 1 => buf idx :: readFrom buf ((idx + 1) % LOG_BUFFER_SIZE) n

/-- handleLog of main_wifi.cpp lines 414 to 444, with the literal 100
generalised to a maxCount parameter: read the min of maxCount and logCount
most recent entries, oldest first, starting at logHead minus that count
modulo the capacity. A pure function of the state: it mutates nothing. -/
def snapshot (maxCount : Nat) (lg : EventLog) : List LogEntry :=
  readFrom lg.buffer
    ((lg.head + (LOG_BUFFER_SIZE - min maxCount lg.count)) % LOG_BUFFER_SIZE)
    (min maxCount lg.count)

/-- The instance the web handler actually serves: snapshot with bound 100. -/
def handleLogEntries (lg : EventLog) : List LogEntry :=
  snapshot 100 lg

/-- handleCSV of main_wifi.cpp lines 587 to 616, row selection only: walk the
whole retained history oldest first, starting at zero while the buffer has
not wrapped and at logHead afterwards. -/
def drainAll (lg : EventLog) : List LogEntry :=
  readFrom lg.buffer (if lg.count < LOG_BUFFER_SIZE then 0 else lg.head) lg.count

/-- The entries a request list stores when the first one is assigned the
given sequence number. -/
def buildEntries (rs : List LogReq) (seq : Nat) : List LogEntry :=
  match rs with
  | [] => []
  | r :: rest => entryOf r seq :: buildEntries rest (seq + 1)

/-- An event log interaction: an append or the log part of handleClear. -/
inductive LogOp where
  | append (r : LogReq)
  | reset
deriving DecidableEq

/-- One step: an append stores its entry and hands back the sequence number
it was assigned; a reset zeroes head and count and keeps nextSeq. -/
def applyLogOp (lg : EventLog) : LogOp → EventLog × Option Nat
  | .append r => (applyReq r lg, some lg.nextSeq)
  | .reset => ({ lg with head := 0, count := 0 }, none)

/-- Run a list of log operations, collecting the returned sequence numbers
of the appends in order. -/
def runOps : List LogOp → EventLog → EventLog × List Nat
  | [], lg => (lg, [])
  | op :: ops, lg =>
    let p := applyLogOp lg op
    let q := runOps ops p.1
    (q.1, match p.2 with | some s => s :: q.2 | none => q.2)

def isAppendOp : LogOp → Bool
  | .append _ => true
  | .reset => false

/-! Rate classifier, from handleScan in main_wifi.cpp lines 474 to 575 and
autoScan in the serial variant. A trial outcome holds the message and
unique identifier counts one candidate rate accumulated in its window, or
records that configuring the transceiver at that rate failed. -/

inductive CanBaud where
  | baud125k
  | baud250k
  | baud500k
  | baud1M
deriving DecidableEq

def scanRates : List CanBaud := [.baud125k, .baud250k, .baud500k, .baud1M]

inductive TrialOutcome where
  | initFail
  | ok (scanMsgCount scanUniqueIds : Nat)
deriving DecidableEq

/-- repeatRate of one trial: frame count over unique identifier count, zero
when either count is zero. -/
def repeatRateOf (msgs ids : Nat) : ℚ :=
  if 0 < ids ∧ 0 < msgs then (msgs : ℚ) / (ids : ℚ) else 0

/-- score of one trial: the repeat rate, times one tenth when more than 30
unique identifiers were seen; an init failure is skipped before any score
is computed, its score counts as zero. -/
def scoreOf : TrialOutcome → ℚ
  | .initFail => 0
  | .ok msgs ids =>
    if 30 < ids then repeatRateOf msgs ids * (1 / 10) else repeatRateOf msgs ids

/-- The selection loop of handleScan: bestRate starts at none (minus one in
the C code) and bestScore at zero; an outcome replaces the best exactly
when its score is strictly greater; an init failure is skipped. -/
def scanLoop : Nat → Option Nat → ℚ → List TrialOutcome → Option Nat × ℚ
  | _, best, bestScore, [] => (best, bestScore)
  | idx, best, bestScore, o :: rest =>
    match o with
    | .initFail => scanLoop (idx + 1) best bestScore rest
    | .ok m i =>
      if bestScore < scoreOf (.ok m i) then
        scanLoop (idx + 1) (some idx) (scoreOf (.ok m i)) rest
      else scanLoop (idx + 1) best bestScore rest

def scanSelect (outs : List TrialOutcome) : Option Nat :=
  (scanLoop 0 none 0 outs).1

/-- The baud rate live after the scan: the winning candidate when one was
selected, otherwise the prior rate. -/
def scanBestBaud (prior : CanBaud) (outs : List TrialOutcome) : CanBaud :=
  match scanSelect outs with
  | some i => scanRates.getD i prior
  | none => prior

/-- Score of the candidate at position j. -/
def scAt (l : List TrialOutcome) (j : Nat) : ℚ :=
  scoreOf (l.getD j .initFail)

/-- Reference recursion for the selection loop: the position of the first
outcome whose score strictly exceeds the running best, taking later
outcomes only on a strict improvement. -/
def selSpec (bs : ℚ) : List TrialOutcome → Option Nat
  | [] => none
  | o :: rest =>
    if bs < scoreOf o then
      match selSpec (scoreOf o) rest with
      | some j => some (j + 1)
      | none => some 0
    else (selSpec bs rest).map (· + 1)

/-- Position i carries a score strictly above the baseline, strictly above
every earlier score, and at least every later score: the first-seen
strict argmax above the baseline. -/
def FirstBest (l : List TrialOutcome) (bs : ℚ) (i : Nat) : Prop :=
  i < l.length ∧ bs < scAt l i ∧
  (∀ j, j < i → scAt l j < scAt l i) ∧
  (∀ k, i < k → k < l.length → scAt l k ≤ scAt l i)

inductive Verdict where
  | noData
  | likelyCorrect
  | noise
  | uncertain
  | initFailed
deriving DecidableEq

/-- The verdict chain of handleScan and autoScan for a completed trial. -/
def verdictOf (msgs ids : Nat) : Verdict :=
  if msgs = 0 then .noData
  else if ids ≤ 20 ∧ 10 < repeatRateOf msgs ids then .likelyCorrect
  else if 30 < ids then .noise
  else .uncertain

/-! Trial polling loops. A poll event is one iteration of the timed window:
a decoded frame, a decode failure, or no pending interrupt. The serial
autoScan counts decode failures in scanErrCount; the wifi handleScan has
no else branch on readMsgBuf and keeps no error counter. -/

inductive PollEvent where
  | frame (id : Nat)
  | recvError
  | idle
deriving DecidableEq

def SCAN_MAX_IDS : Nat := 64

/-- The inner linear scan shared by both trial loops: bump the count of the
first matching identifier, none when absent. -/
def bumpScanId (id : Nat) : List (Nat × Nat) → Option (List (Nat × Nat))
  | [] => none
  | p :: ps =>
    if p.1 = id then some ((p.1, p.2 + 1) :: ps)
    else (bumpScanId id ps).map (p :: ·)

/-- Trial-scoped identifier tracking with capacity 64: new identifiers
beyond capacity are dropped. -/
def trackScanId (id : Nat) (l : List (Nat × Nat)) : List (Nat × Nat) :=
  match bumpScanId id l with
  | some l2 => l2
  | none => if l.length < SCAN_MAX_IDS then l ++ [(id, 1)] else l

structure SerialTrial where
  scanIds : List (Nat × Nat)
  scanMsgCount : Nat
  scanErrCount : Nat
deriving DecidableEq

/-- One window iteration of the serial autoScan, part_000 lines 202 to 230. -/
def serialTrialStep (st : SerialTrial) : PollEvent → SerialTrial
  | .frame id => { st with scanMsgCount := st.scanMsgCount + 1,
                           scanIds := trackScanId id st.scanIds }
  | .recvError => { st with scanErrCount := st.scanErrCount + 1 }
  | .idle => st

/-- The serial trial state after the whole event sequence of one window. -/
def runTrialSerial (evts : List PollEvent) : SerialTrial :=
  evts.foldl serialTrialStep { scanIds := [], scanMsgCount := 0, scanErrCount := 0 }

structure WifiTrial where
  scanIds : List (Nat × Nat)
  scanMsgCount : Nat
deriving DecidableEq

/-- One window iteration of the wifi handleScan, main_wifi.cpp lines 497 to
522: a decode failure falls through with no state change at all. -/
def wifiTrialStep (st : WifiTrial) : PollEvent → WifiTrial
  | .frame id => { st with scanMsgCount := st.scanMsgCount + 1,
                           scanIds := trackScanId id st.scanIds }
  | .recvError => st
  | .idle => st

def runTrialWifi (evts : List PollEvent) : WifiTrial :=
  evts.foldl wifiTrialStep { scanIds := [], scanMsgCount := 0 }

def isFrameEvt : PollEvent → Bool
  | .frame _ => true
  | _ => false

def isErrEvt : PollEvent → Bool
  | .recvError => true
  | _ => false

/-! Whole-system state of the wifi variant and its handlers, and the state
of the serial variant with its command effects. -/

structure SysState where
  currentBaud : CanBaud
  table : List IdRecord
  log : EventLog
  messageCount : Nat
  errorCount : Nat

/-- handleBaud of main_wifi.cpp lines 446 to 458: switch the rate and re-arm
the transceiver; the switch statement has no default, so any other value
leaves the rate unchanged. No table, log or counter is touched. -/
def handleBaud (v : Nat) (st : SysState) : SysState :=
  { st with currentBaud :=
      match v with
      | 1 => .baud125k
      | 2 => .baud250k
      | 3 => .baud500k
      | 4 => .baud1M
      | _ => st.currentBaud }

/-- handleClear of main_wifi.cpp lines 577 to 585: zero the counters, empty
the identifier table, zero logHead and logCount; nextSeq is kept. -/
def handleClear (st : SysState) : SysState :=
  { st with messageCount := 0, errorCount := 0, table := [],
            log := { st.log with head := 0, count := 0 } }

/-- State effect of handleScan once the per-rate outcomes are fixed: only
currentBaud changes; the live table and log are untouched. -/
def handleScanWifi (outs : List TrialOutcome) (st : SysState) : SysState :=
  { st with currentBaud := scanBestBaud st.currentBaud outs }

/-- The whitespace class of the trim call on an Arduino String. -/
def isSpaceByte (b : Nat) : Bool :=
  b == 32 || (decide (9 ≤ b) && decide (b ≤ 13))

/-- String trim: strip whitespace bytes from both ends. -/
def trimBytes (l : List Nat) : List Nat :=
  ((l.dropWhile isSpaceByte).reverse.dropWhile isSpaceByte).reverse

/-- handleMark of main_wifi.cpp lines 461 to 470: with a msg argument, trim
it; append an annotation only when the trimmed text is nonempty. -/
def handleMark (arg : Option (List Nat)) (now : Nat) (st : SysState) : SysState :=
  match arg with
  | none => st
  | some msg =>
    if 0 < (trimBytes msg).length then
      { st with log := addMarkToLog now (trimBytes msg) st.log }
    else st

structure SerialState where
  currentBaud : CanBaud
  seenIds : List (Nat × Nat)
  messageCount : Nat
  errorCount : Nat
deriving DecidableEq

/-- clearCounts of the serial variant, part_000 lines 295 to 303. -/
def clearCounts (st : SerialState) : SerialState :=
  { st with messageCount := 0, errorCount := 0, seenIds := [] }

/-- A serial baud command (cases 1 to 4 of the command switch): set the
rate, re-arm the transceiver, then clearCounts. -/
def serialSetBaud (b : CanBaud) (st : SerialState) : SerialState :=
  clearCounts { st with currentBaud := b }

/-- State effect of the serial autoScan, part_000 lines 275 to 291: when a
best rate was found, switch to it and clearCounts; otherwise only re-arm at
the prior rate. -/
def serialAutoScan (outs : List TrialOutcome) (st : SerialState) : SerialState :=
  match scanSelect outs with
  | some i => clearCounts { st with currentBaud := scanRates.getD i st.currentBaud }
  | none => st

/-- The wifi state right after startup. -/
def initSys : SysState :=
  { currentBaud := .baud250k, table := [],
    log := { buffer := fun _ => defEntry, head := 0, count := 0, nextSeq := 1 },
    messageCount := 0, errorCount := 0 }

/-- A reachable wifi state with a nonempty table, a nonempty log and nonzero
counters, used to exhibit what handleBaud leaves in place. -/
def exState : SysState :=
  { currentBaud := .baud250k,
    table := [{ identifier := 3, occurrences := 5, lastPayload := zeros8 }],
    log := { buffer := fun _ => defEntry, head := 3, count := 7, nextSeq := 42 },
    messageCount := 9, errorCount := 2 }

/-! Lemmas about the identifier table. -/

lemma countId_append (hist : List RecordCall) (c : RecordCall) (id : Nat) :
    countId (hist ++ [c]) id = countId hist id + (if c.id = id then 1 else 0) := by
  simp [countId, List.countP_append, List.countP_cons]

lemma updateMatch_eq_none (id : Nat) (data : List Nat) (dlc : Nat) :
    ∀ tbl : List IdRecord,
      updateMatch id data dlc tbl = none ↔ ∀ r ∈ tbl, r.identifier ≠ id := by
  intro tbl
  induction tbl with
  | nil => simp [updateMatch]
  | cons a as ih =>
    by_cases h : a.identifier = id
    · simp [updateMatch, h]
    · cases heq : updateMatch id data dlc as with
      | none =>
        simp only [updateMatch, h, if_neg h, heq]
        constructor
        · intro _ r hr
          rcases List.mem_cons.mp hr with hr | hr
          · subst hr; exact h
          · exact ih.mp heq r hr
        · intro _; rfl
      | some pr =>
        simp only [updateMatch, h, if_neg h, heq]
        constructor
        · intro hc; exact absurd hc (by simp)
        · intro hall
          have : updateMatch id data dlc as = none :=
            ih.mpr (fun r hr => hall r (by simp [hr]))
          rw [this] at heq; exact absurd heq (by simp)

lemma updateMatch_eq_some (id : Nat) (data : List Nat) (dlc : Nat) :
    ∀ (tbl tbl2 : List IdRecord) (i : Nat),
      updateMatch id data dlc tbl = some (tbl2, i) →
      ∃ pre r post, tbl = pre ++ r :: post ∧ (∀ x ∈ pre, x.identifier ≠ id) ∧
        r.identifier = id ∧ i = pre.length ∧
        tbl2 = pre ++ { identifier := r.identifier, occurrences := r.occurrences + 1,
                        lastPayload := updPayload r.lastPayload data dlc } :: post := by
  intro tbl
  induction tbl with
  | nil => intro tbl2 i h; simp [updateMatch] at h
  | cons a as ih =>
    intro tbl2 i h
    by_cases ha : a.identifier = id
    · simp only [updateMatch, if_pos ha] at h
      obtain ⟨h1, h2⟩ := Prod.mk.injEq .. ▸ Option.some.injEq .. ▸ h
      refine ⟨[], a, as, by simp, by simp, ha, by simp [← h2], by simp [← h1]⟩
    · cases heq : updateMatch id data dlc as with
      | none => simp [updateMatch, if_neg ha, heq] at h
      | some pr =>
        obtain ⟨rs2, j⟩ := pr
        simp only [updateMatch, if_neg ha, heq] at h
        obtain ⟨h1, h2⟩ := Prod.mk.injEq .. ▸ Option.some.injEq .. ▸ h
        obtain ⟨pre, r, post, e1, e2, e3, e4, e5⟩ := ih rs2 j heq
        refine ⟨a :: pre, r, post, by simp [e1], ?_, e3, by simp [← h2, e4], ?_⟩
        · intro x hx
          rcases List.mem_cons.mp hx with hx | hx
          · subst hx; exact ha
          · exact e2 x hx
        · simp [← h1, e5]

lemma pairwise_ids_congr (l1 l2 : List IdRecord)
    (h : l1.map (fun x => x.identifier) = l2.map (fun x => x.identifier))
    (hp : l1.Pairwise (fun a b => a.identifier ≠ b.identifier)) :
    l2.Pairwise (fun a b => a.identifier ≠ b.identifier) := by
  have h1 : (l1.map (fun x => x.identifier)).Pairwise (· ≠ ·) :=
    List.pairwise_map.mpr hp
  rw [h] at h1
  exact List.pairwise_map.mp h1

lemma tableInv_step (hist : List RecordCall) (tbl : List IdRecord) (c : RecordCall)
    (h : tableInv hist tbl) :
    tableInv (hist ++ [c]) ((findOrAddId c.id c.data c.dlc tbl).1) := by
  obtain ⟨hlen, hpw, hocc, hfresh⟩ := h
  cases heq : updateMatch c.id c.data c.dlc tbl with
  | some pr =>
    obtain ⟨tbl2, i⟩ := pr
    obtain ⟨pre, r, post, e1, e2, e3, e4, e5⟩ :=
      updateMatch_eq_some c.id c.data c.dlc tbl tbl2 i heq
    subst e1 e5
    simp only [findOrAddId, heq]
    have hmemr : r ∈ pre ++ r :: post := List.mem_append.mpr (Or.inr (by simp))
    refine ⟨?_, ?_, ?_, ?_⟩
    · simpa using hlen
    · exact pairwise_ids_congr _ _ (by simp) hpw
    · intro x hx
      rcases List.mem_append.mp hx with hx | hx
      · have hxid := e2 x hx
        have hx0 := hocc x (List.mem_append.mpr (Or.inl hx))
        rw [countId_append, if_neg (fun hh => hxid hh.symm), hx0]
        simp
      · rcases List.mem_cons.mp hx with hx | hx
        · subst hx
          simp only
          rw [countId_append, if_pos e3.symm, hocc r hmemr]
        · have hpair := (List.pairwise_append.mp hpw).2.1
          have hrx : r.identifier ≠ x.identifier := (List.pairwise_cons.mp hpair).1 x hx
          have hxid : x.identifier ≠ c.id := by
            rw [← e3]; exact fun hh => hrx hh.symm
          rw [countId_append, if_neg (fun hh => hxid hh.symm),
            hocc x (List.mem_append.mpr (Or.inr (by simp [hx])))]
          simp
    · intro hlt id hid
      have hlt0 : (pre ++ r :: post).length < MAX_UNIQUE_IDS := by simpa using hlt
      have hcid : c.id ≠ id := by
        have := hid _ (List.mem_append.mpr (Or.inr (List.mem_cons_self _ _)))
        simpa [← e3] using this
      have hold : ∀ x ∈ pre ++ r :: post, x.identifier ≠ id := by
        intro x hx
        rcases List.mem_append.mp hx with hx | hx
        · exact hid x (List.mem_append.mpr (Or.inl hx))
        · rcases List.mem_cons.mp hx with hx | hx
          · subst hx; rw [e3]; exact hcid
          · exact hid x (List.mem_append.mpr (Or.inr (by simp [hx])))
      rw [countId_append, if_neg hcid, hfresh hlt0 id hold]
  | none =>
    have hnotin : ∀ r ∈ tbl, r.identifier ≠ c.id :=
      (updateMatch_eq_none c.id c.data c.dlc tbl).mp heq
    by_cases hlt : tbl.length < MAX_UNIQUE_IDS
    · simp only [findOrAddId, heq, if_pos hlt]
      refine ⟨?_, ?_, ?_, ?_⟩
      · simp; omega
      · refine List.pairwise_append.mpr ⟨hpw, by simp, ?_⟩
        intro a ha b hb
        simp only [List.mem_singleton] at hb
        subst hb
        exact hnotin a ha
      · intro x hx
        rcases List.mem_append.mp hx with hx | hx
        · rw [countId_append, if_neg (fun hh => (hnotin x hx) hh.symm), hocc x hx]
          simp
        · simp only [List.mem_singleton] at hx
          subst hx
          simp only
          rw [countId_append, if_pos rfl, hfresh hlt c.id hnotin]
      · intro _ id hid
        have hne : ∀ x ∈ tbl, x.identifier ≠ id := by
          intro x hx; exact hid x (List.mem_append.mpr (Or.inl hx))
        have hcid : c.id ≠ id := by
          have := hid _ (List.mem_append.mpr (Or.inr (List.mem_cons_self _ _)))
          simpa using this
        rw [countId_append, if_neg hcid, hfresh hlt id hne]
    · simp only [findOrAddId, heq, if_neg hlt]
      refine ⟨hlen, hpw, ?_, ?_⟩
      · intro x hx
        rw [countId_append, if_neg (fun hh => (hnotin x hx) hh.symm), hocc x hx]
        simp
      · intro hlt2; exact absurd hlt2 hlt

lemma runTable_inv : ∀ (calls hist : List RecordCall) (tbl : List IdRecord),
    tableInv hist tbl →
    tableInv (hist ++ calls)
      (calls.foldl (fun t c => (findOrAddId c.id c.data c.dlc t).1) tbl) := by
  intro calls
  induction calls with
  | nil => intro hist tbl h; simpa using h
  | cons c cs ih =>
    intro hist tbl h
    have h3 := ih (hist ++ [c]) _ (tableInv_step hist tbl c h)
    simpa [List.append_assoc] using h3

/-- C1: over any sequence of record calls since the last reset, the
identifier table never holds more than MAX_UNIQUE_IDS records, every held
record counts exactly the record calls bearing its identifier, and a new
identifier arriving at a full table is dropped with a full result while
the table is left unchanged. -/
theorem idTable_capacity_and_exact_counts (calls : List RecordCall) :
    (runTable calls).length ≤ MAX_UNIQUE_IDS ∧
    (∀ r ∈ runTable calls, r.occurrences = countId calls r.identifier) ∧
    (∀ c : RecordCall, (runTable calls).length = MAX_UNIQUE_IDS →
      (∀ r ∈ runTable calls, r.identifier ≠ c.id) →
      findOrAddId c.id c.data c.dlc (runTable calls)
        = (runTable calls, RecordResult.full)) := by
  have base : tableInv [] [] := by
    refine ⟨by simp, by simp, by simp, ?_⟩
    intro _ id _
    simp [countId]
  have H := runTable_inv calls [] [] base
  rw [List.nil_append] at H
  obtain ⟨h1, _, h3, _⟩ := H
  refine ⟨h1, h3, ?_⟩
  intro c hfull hnone
  have hne : updateMatch c.id c.data c.dlc (runTable calls) = none :=
    (updateMatch_eq_none c.id c.data c.dlc (runTable calls)).mpr hnone
  simp [findOrAddId, hne, hfull]

/-- Witness for C1 at a concrete call sequence. -/
theorem idTable_capacity_and_exact_counts_witness :
    (runTable [⟨5, zeros8, 8⟩, ⟨5, zeros8, 8⟩, ⟨7, zeros8, 8⟩]).length
        ≤ MAX_UNIQUE_IDS ∧
    (∀ r ∈ runTable [⟨5, zeros8, 8⟩, ⟨5, zeros8, 8⟩, ⟨7, zeros8, 8⟩],
      r.occurrences
        = countId [⟨5, zeros8, 8⟩, ⟨5, zeros8, 8⟩, ⟨7, zeros8, 8⟩] r.identifier) :=
  ⟨(idTable_capacity_and_exact_counts _).1,
   (idTable_capacity_and_exact_counts _).2.1⟩

lemma updateMatch_decomp (id : Nat) (data : List Nat) (dlc : Nat) :
    ∀ (pre : List IdRecord) (r : IdRecord) (post : List IdRecord),
      (∀ x ∈ pre, x.identifier ≠ id) → r.identifier = id →
      updateMatch id data dlc (pre ++ r :: post)
        = some (pre ++ { identifier := r.identifier,
                         occurrences := r.occurrences + 1,
                         lastPayload := updPayload r.lastPayload data dlc } :: post,
                pre.length) := by
  intro pre
  induction pre with
  | nil => intro r post _ hr; simp [updateMatch, hr]
  | cons a as ih =>
    intro r post hpre hr
    have ha : a.identifier ≠ id := hpre a (by simp)
    simp [updateMatch, ha, ih r post (fun x hx => hpre x (by simp [hx])) hr]

/-- C9: a record call matching the record for its identifier overwrites
exactly the first dlc bytes of that record lastPayload with the new bytes
and keeps the bytes from dlc up to 7 at their prior value, the legacy
partial overwrite. -/
theorem record_partial_payload_overwrite
    (pre post : List IdRecord) (r : IdRecord) (id : Nat) (data : List Nat)
    (dlc : Nat) (hpre : ∀ x ∈ pre, x.identifier ≠ id) (hr : r.identifier = id)
    (hdlc : dlc ≤ 8) (hdata : data.length = 8) :
    findOrAddId id data dlc (pre ++ r :: post)
      = (pre ++ { identifier := r.identifier,
                  occurrences := r.occurrences + 1,
                  lastPayload := updPayload r.lastPayload data dlc } :: post,
         RecordResult.index pre.length) ∧
    (updPayload r.lastPayload data dlc).take dlc = data.take dlc ∧
    (updPayload r.lastPayload data dlc).drop dlc = r.lastPayload.drop dlc ∧
    (r.lastPayload.length = 8 → (updPayload r.lastPayload data dlc).length = 8) := by
  have hlen : (data.take dlc).length = dlc := by
    rw [List.length_take]
    omega
  refine ⟨?_, ?_, ?_, ?_⟩
  · simp [findOrAddId, updateMatch_decomp id data dlc pre r post hpre hr]
  · exact List.take_left' hlen
  · exact List.drop_left' hlen
  · intro hold
    simp only [updPayload, List.length_append, List.length_take, List.length_drop,
      hold, hdata]
    omega

/-- Witness for C9: a matching call with a 3 byte copy over an 8 byte prior
payload. -/
theorem record_partial_payload_overwrite_witness :
    findOrAddId 5 [9, 9, 9, 9, 9, 9, 9, 9] 3
        ([] ++ ({ identifier := 5, occurrences := 1,
                  lastPayload := [1, 2, 3, 4, 5, 6, 7, 8] } : IdRecord) :: [])
      = ([] ++ ({ identifier := 5, occurrences := 1 + 1,
                  lastPayload := updPayload [1, 2, 3, 4, 5, 6, 7, 8]
                    [9, 9, 9, 9, 9, 9, 9, 9] 3 } : IdRecord) :: [],
         RecordResult.index 0) ∧
    (updPayload [1, 2, 3, 4, 5, 6, 7, 8] [9, 9, 9, 9, 9, 9, 9, 9] 3).take 3
      = [9, 9, 9, 9, 9, 9, 9, 9].take 3 ∧
    (updPayload [1, 2, 3, 4, 5, 6, 7, 8] [9, 9, 9, 9, 9, 9, 9, 9] 3).drop 3
      = [1, 2, 3, 4, 5, 6, 7, 8].drop 3 ∧
    (([1, 2, 3, 4, 5, 6, 7, 8] : List Nat).length = 8 →
      (updPayload [1, 2, 3, 4, 5, 6, 7, 8] [9, 9, 9, 9, 9, 9, 9, 9] 3).length = 8) :=
  record_partial_payload_overwrite [] []
    { identifier := 5, occurrences := 1, lastPayload := [1, 2, 3, 4, 5, 6, 7, 8] }
    5 [9, 9, 9, 9, 9, 9, 9, 9] 3 (by simp) rfl (by decide) rfl

/-! Lemmas about the event log ring buffer. -/

lemma applyReq_buffer (r : LogReq) (lg : EventLog) :
    (applyReq r lg).buffer
      = fun j => if j = lg.head then entryOf r lg.nextSeq else lg.buffer j := by
  cases r <;> rfl

lemma applyReq_head (r : LogReq) (lg : EventLog) :
    (applyReq r lg).head = (lg.head + 1) % LOG_BUFFER_SIZE := by
  cases r <;> rfl

lemma applyReq_count (r : LogReq) (lg : EventLog) :
    (applyReq r lg).count
      = if lg.count < LOG_BUFFER_SIZE then lg.count + 1 else lg.count := by
  cases r <;> rfl

lemma applyReq_nextSeq (r : LogReq) (lg : EventLog) :
    (applyReq r lg).nextSeq = lg.nextSeq + 1 := by
  cases r <;> rfl

lemma readFrom_snoc (buf : Nat → LogEntry) :
    ∀ (n idx : Nat), idx < LOG_BUFFER_SIZE →
      readFrom buf idx (n + 1)
        = readFrom buf idx n ++ [buf ((idx + n) % LOG_BUFFER_SIZE)] := by
  intro n
  induction n with
  | zero =>
    intro idx h
    simp [readFrom, Nat.mod_eq_of_lt h]
  | succ n ih =>
    intro idx h
    have hlt : (idx + 1) % LOG_BUFFER_SIZE < LOG_BUFFER_SIZE :=
      Nat.mod_lt _ (by decide)
    calc readFrom buf idx (n + 1 + 1)
        = buf idx :: readFrom buf ((idx + 1) % LOG_BUFFER_SIZE) (n + 1) := rfl
      _ = buf idx :: (readFrom buf ((idx + 1) % LOG_BUFFER_SIZE) n
            ++ [buf (((idx + 1) % LOG_BUFFER_SIZE + n) % LOG_BUFFER_SIZE)]) := by
          rw [ih _ hlt]
      _ = readFrom buf idx (n + 1) ++ [buf ((idx + (n + 1)) % LOG_BUFFER_SIZE)] := by
          rw [Nat.mod_add_mod]
          have he : idx + 1 + n = idx + (n + 1) := by omega
          rw [he]
          rfl

lemma readFrom_update (buf : Nat → LogEntry) (p : Nat) (e : LogEntry) :
    ∀ (n idx : Nat), idx < LOG_BUFFER_SIZE →
      (∀ i, i < n → (idx + i) % LOG_BUFFER_SIZE ≠ p) →
      readFrom (fun j => if j = p then e else buf j) idx n = readFrom buf idx n := by
  intro n
  induction n with
  | zero => intro idx _ _; rfl
  | succ n ih =>
    intro idx h hnot
    have h0 : idx ≠ p := by
      have := hnot 0 (Nat.succ_pos n)
      simpa [Nat.mod_eq_of_lt h] using this
    have hlt : (idx + 1) % LOG_BUFFER_SIZE < LOG_BUFFER_SIZE :=
      Nat.mod_lt _ (by decide)
    have htail : ∀ i, i < n →
        ((idx + 1) % LOG_BUFFER_SIZE + i) % LOG_BUFFER_SIZE ≠ p := by
      intro i hi
      have hh := hnot (i + 1) (by omega)
      rw [Nat.mod_add_mod]
      have he : idx + 1 + i = idx + (i + 1) := by omega
      rw [he]
      exact hh
    calc readFrom (fun j => if j = p then e else buf j) idx (n + 1)
        = (if idx = p then e else buf idx)
            :: readFrom (fun j => if j = p then e else buf j)
                 ((idx + 1) % LOG_BUFFER_SIZE) n := rfl
      _ = buf idx :: readFrom buf ((idx + 1) % LOG_BUFFER_SIZE) n := by
          rw [if_neg h0, ih _ hlt htail]
      _ = readFrom buf idx (n + 1) := rfl

lemma readFrom_drop (buf : Nat → LogEntry) :
    ∀ (d c idx : Nat), idx < LOG_BUFFER_SIZE →
      (readFrom buf idx (d + c)).drop d
        = readFrom buf ((idx + d) % LOG_BUFFER_SIZE) c := by
  intro d
  induction d with
  | zero =>
    intro c idx h
    simp [Nat.mod_eq_of_lt h]
  | succ d ih =>
    intro c idx h
    have hlt : (idx + 1) % LOG_BUFFER_SIZE < LOG_BUFFER_SIZE :=
      Nat.mod_lt _ (by decide)
    have h1 : d + 1 + c = d + c + 1 := by omega
    rw [h1]
    show (buf idx :: readFrom buf ((idx + 1) % LOG_BUFFER_SIZE) (d + c)).drop (d + 1)
        = readFrom buf ((idx + (d + 1)) % LOG_BUFFER_SIZE) c
    rw [List.drop_succ_cons, ih c _ hlt, Nat.mod_add_mod]
    have he : idx + 1 + d = idx + (d + 1) := by omega
    rw [he]

lemma buildEntries_append (r : LogReq) :
    ∀ (rs : List LogReq) (s : Nat),
      buildEntries (rs ++ [r]) s
        = buildEntries rs s ++ [entryOf r (s + rs.length)] := by
  intro rs
  induction rs with
  | nil => intro s; simp [buildEntries]
  | cons a as ih =>
    intro s
    have he : s + 1 + as.length = s + (as.length + 1) := by omega
    simp [buildEntries, ih (s + 1), he]

lemma buildEntries_length : ∀ (rs : List LogReq) (s : Nat),
    (buildEntries rs s).length = rs.length := by
  intro rs
  induction rs with
  | nil => intro s; rfl
  | cons a as ih => intro s; simp [buildEntries, ih]

lemma processAll_append (rs : List LogReq) (r : LogReq) (lg : EventLog) :
    processAll (rs ++ [r]) lg = applyReq r (processAll rs lg) := by
  simp [processAll, List.foldl_append]

lemma processAll_spec (rs : List LogReq) (b0 : Nat → LogEntry) (s0 : Nat) :
    (processAll rs ⟨b0, 0, 0, s0⟩).head = rs.length % LOG_BUFFER_SIZE ∧
    (processAll rs ⟨b0, 0, 0, s0⟩).count = min rs.length LOG_BUFFER_SIZE ∧
    (processAll rs ⟨b0, 0, 0, s0⟩).nextSeq = s0 + rs.length ∧
    drainAll (processAll rs ⟨b0, 0, 0, s0⟩)
      = (buildEntries rs s0).drop (rs.length - LOG_BUFFER_SIZE) := by
  induction rs using List.reverseRecOn with
  | nil =>
    refine ⟨rfl, rfl, rfl, ?_⟩
    simp [processAll, drainAll, readFrom, buildEntries]
  | append_singleton rs r ih =>
    obtain ⟨h1, h2, h3, h4⟩ := ih
    set st := processAll rs ⟨b0, 0, 0, s0⟩ with hst
    have hstep : processAll (rs ++ [r]) ⟨b0, 0, 0, s0⟩ = applyReq r st :=
      processAll_append rs r _
    have hlen2 : (rs ++ [r]).length = rs.length + 1 := by simp
    have hhead : (applyReq r st).head = (rs.length + 1) % LOG_BUFFER_SIZE := by
      rw [applyReq_head, h1, Nat.mod_add_mod]
    have hcount : (applyReq r st).count = min (rs.length + 1) LOG_BUFFER_SIZE := by
      rw [applyReq_count, h2]
      split_ifs with hc <;> omega
    have hseq : (applyReq r st).nextSeq = s0 + (rs.length + 1) := by
      rw [applyReq_nextSeq, h3]
      omega
    refine ⟨?_, ?_, ?_, ?_⟩
    · rw [hstep, hhead, hlen2]
    · rw [hstep, hcount, hlen2]
    · rw [hstep, hseq, hlen2]
    · rw [hstep, hlen2, buildEntries_append]
      set e := entryOf r st.nextSeq with hedef
      set buf2 := fun j => if j = st.head then e else st.buffer j with hbuf2
      have hbuf : (applyReq r st).buffer = buf2 := applyReq_buffer r st
      have hent : entryOf r (s0 + rs.length) = e := by rw [hedef, h3]
      rw [hent]
      rcases Nat.lt_or_ge rs.length LOG_BUFFER_SIZE with hc | hc
      · have hcnt : st.count = rs.length := by rw [h2]; omega
        have hhd : st.head = rs.length := by rw [h1, Nat.mod_eq_of_lt hc]
        have hcnt2 : (applyReq r st).count = rs.length + 1 := by rw [hcount]; omega
        have hstart : (if rs.length + 1 < LOG_BUFFER_SIZE then 0
            else (applyReq r st).head) = 0 := by
          rcases Nat.lt_or_ge (rs.length + 1) LOG_BUFFER_SIZE with hc2 | hc2
          · rw [if_pos hc2]
          · have he : rs.length + 1 = LOG_BUFFER_SIZE := by omega
            rw [if_neg (by omega), hhead, he, Nat.mod_self]
        simp only [drainAll, hbuf, hcnt2]
        rw [hstart]
        have hsnoc := readFrom_snoc buf2 rs.length 0 (by decide)
        rw [hsnoc]
        have hslot : (0 + rs.length) % LOG_BUFFER_SIZE = rs.length := by
          rw [Nat.zero_add, Nat.mod_eq_of_lt hc]
        rw [hslot]
        have hbufhd : buf2 rs.length = e := by rw [hbuf2]; simp [hhd]
        have hupd : readFrom buf2 0 rs.length = readFrom st.buffer 0 rs.length := by
          rw [hbuf2]
          apply readFrom_update st.buffer st.head e rs.length 0 (by decide)
          intro i hi
          rw [Nat.zero_add, Nat.mod_eq_of_lt (by omega), hhd]
          omega
        rw [hupd, hbufhd]
        simp only [drainAll, hcnt] at h4
        rw [if_pos hc] at h4
        have h0 : rs.length - LOG_BUFFER_SIZE = 0 := by omega
        rw [h0, List.drop_zero] at h4
        rw [h4]
        have h02 : rs.length + 1 - LOG_BUFFER_SIZE = 0 := by omega
        rw [h02, List.drop_zero]
      · have hcnt : st.count = LOG_BUFFER_SIZE := by rw [h2]; omega
        have hh : st.head < LOG_BUFFER_SIZE := by
          rw [h1]; exact Nat.mod_lt _ (by decide)
        have hcnt2 : (applyReq r st).count = LOG_BUFFER_SIZE := by
          rw [hcount]; omega
        have hstart : (if LOG_BUFFER_SIZE < LOG_BUFFER_SIZE then 0
            else (applyReq r st).head) = (st.head + 1) % LOG_BUFFER_SIZE := by
          rw [if_neg (by omega), applyReq_head]
        have hN1 : LOG_BUFFER_SIZE - 1 + 1 = LOG_BUFFER_SIZE := by decide
        simp only [drainAll, hcnt] at h4
        rw [if_neg (by omega)] at h4
        have hpeel : readFrom st.buffer st.head LOG_BUFFER_SIZE
            = st.buffer st.head
              :: readFrom st.buffer ((st.head + 1) % LOG_BUFFER_SIZE)
                   (LOG_BUFFER_SIZE - 1) := by
          conv_lhs => rw [← hN1]
          rfl
        simp only [drainAll, hbuf, hcnt2]
        rw [hstart]
        have hsnoc := readFrom_snoc buf2 (LOG_BUFFER_SIZE - 1)
          ((st.head + 1) % LOG_BUFFER_SIZE) (Nat.mod_lt _ (by decide))
        rw [hN1] at hsnoc
        rw [hsnoc]
        have hslot : ((st.head + 1) % LOG_BUFFER_SIZE + (LOG_BUFFER_SIZE - 1))
            % LOG_BUFFER_SIZE = st.head := by
          rw [Nat.mod_add_mod]
          have he : st.head + 1 + (LOG_BUFFER_SIZE - 1)
              = st.head + LOG_BUFFER_SIZE := by omega
          rw [he, Nat.add_mod_right, Nat.mod_eq_of_lt hh]
        rw [hslot]
        have hbufhd : buf2 st.head = e := by rw [hbuf2]; simp
        have hupd : readFrom buf2 ((st.head + 1) % LOG_BUFFER_SIZE)
            (LOG_BUFFER_SIZE - 1)
            = readFrom st.buffer ((st.head + 1) % LOG_BUFFER_SIZE)
                (LOG_BUFFER_SIZE - 1) := by
          rw [hbuf2]
          apply readFrom_update st.buffer st.head e _ _ (Nat.mod_lt _ (by decide))
          intro i hi
          rw [Nat.mod_add_mod]
          by_cases hcase : st.head + 1 + i < LOG_BUFFER_SIZE
          · rw [Nat.mod_eq_of_lt hcase]; omega
          · rw [Nat.mod_eq_sub_mod (by omega), Nat.mod_eq_of_lt (by omega)]
            omega
        rw [hupd, hbufhd]
        have htail : readFrom st.buffer ((st.head + 1) % LOG_BUFFER_SIZE)
            (LOG_BUFFER_SIZE - 1)
            = (buildEntries rs s0).drop (rs.length - LOG_BUFFER_SIZE + 1) := by
          have h5 : (readFrom st.buffer st.head LOG_BUFFER_SIZE).drop 1
              = ((buildEntries rs s0).drop (rs.length - LOG_BUFFER_SIZE)).drop 1 := by
            rw [h4]
          rw [hpeel] at h5
          simp only [List.drop_succ_cons, List.drop_zero] at h5
          rw [h5, List.drop_drop]
        rw [htail,
          List.drop_append_of_le_length (by rw [buildEntries_length]; omega)]
        have hidx : rs.length - LOG_BUFFER_SIZE + 1
            = rs.length + 1 - LOG_BUFFER_SIZE := by omega
        rw [hidx]

/-- C6: appending capacity plus m entries (m positive) to an empty log
leaves exactly capacity entries in drainAll, namely the appends m+1 through
capacity+m in oldest first order; the earliest m entries were evicted. -/
theorem drainAll_after_overflow (rs : List LogReq) (m : Nat)
    (b0 : Nat → LogEntry) (s0 : Nat) (hm : 0 < m)
    (hlen : rs.length = LOG_BUFFER_SIZE + m) :
    drainAll (processAll rs ⟨b0, 0, 0, s0⟩) = (buildEntries rs s0).drop m ∧
    (drainAll (processAll rs ⟨b0, 0, 0, s0⟩)).length = LOG_BUFFER_SIZE := by
  obtain ⟨_, _, _, h4⟩ := processAll_spec rs b0 s0
  have hdrop : rs.length - LOG_BUFFER_SIZE = m := by omega
  rw [hdrop] at h4
  refine ⟨h4, ?_⟩
  rw [h4, List.length_drop, buildEntries_length]
  omega

/-- Witness for C6 with m equal to one. -/
theorem drainAll_after_overflow_witness :
    drainAll (processAll
        (List.replicate (LOG_BUFFER_SIZE + 1) (LogReq.mark 0 [1]))
        ⟨fun _ => defEntry, 0, 0, 1⟩)
      = (buildEntries
          (List.replicate (LOG_BUFFER_SIZE + 1) (LogReq.mark 0 [1])) 1).drop 1 ∧
    (drainAll (processAll
        (List.replicate (LOG_BUFFER_SIZE + 1) (LogReq.mark 0 [1]))
        ⟨fun _ => defEntry, 0, 0, 1⟩)).length = LOG_BUFFER_SIZE :=
  drainAll_after_overflow _ 1 _ 1 (by decide) (by simp)

/-- C7: snapshot returns exactly the min of n and the retained count most
recent entries, oldest first, for every reachable log state; snapshot is a
pure function of the state, so it mutates nothing. -/
theorem snapshot_most_recent (rs : List LogReq) (n : Nat)
    (b0 : Nat → LogEntry) (s0 : Nat) :
    snapshot n (processAll rs ⟨b0, 0, 0, s0⟩)
      = (buildEntries rs s0).drop
          (rs.length - min n (min rs.length LOG_BUFFER_SIZE)) ∧
    (snapshot n (processAll rs ⟨b0, 0, 0, s0⟩)).length
      = min n (min rs.length LOG_BUFFER_SIZE) := by
  obtain ⟨h1, h2, h3, h4⟩ := processAll_spec rs b0 s0
  set st := processAll rs ⟨b0, 0, 0, s0⟩ with hst
  set c := min n (min rs.length LOG_BUFFER_SIZE) with hc
  have hminc : min n st.count = c := by rw [h2, hc]
  have hkey : readFrom st.buffer
      ((st.head + (LOG_BUFFER_SIZE - c)) % LOG_BUFFER_SIZE) c
      = (drainAll st).drop (st.count - c) := by
    rcases Nat.lt_or_ge rs.length LOG_BUFFER_SIZE with hlt | hge
    · have hcnt : st.count = rs.length := by rw [h2]; omega
      have hhd : st.head = rs.length := by rw [h1, Nat.mod_eq_of_lt hlt]
      have hcle : c ≤ rs.length := by rw [hc]; omega
      simp only [drainAll, hcnt]
      rw [if_pos hlt]
      have hd := readFrom_drop st.buffer (rs.length - c) c 0 (by decide)
      have he : rs.length - c + c = rs.length := by omega
      rw [he] at hd
      have hs : (st.head + (LOG_BUFFER_SIZE - c)) % LOG_BUFFER_SIZE
          = (0 + (rs.length - c)) % LOG_BUFFER_SIZE := by
        rw [hhd, Nat.zero_add]
        have he2 : rs.length + (LOG_BUFFER_SIZE - c)
            = (rs.length - c) + LOG_BUFFER_SIZE := by omega
        rw [he2, Nat.add_mod_right]
      rw [hs, ← hd]
    · have hcnt : st.count = LOG_BUFFER_SIZE := by rw [h2]; omega
      have hh : st.head < LOG_BUFFER_SIZE := by
        rw [h1]; exact Nat.mod_lt _ (by decide)
      have hcle : c ≤ LOG_BUFFER_SIZE := by rw [hc]; omega
      simp only [drainAll, hcnt]
      rw [if_neg (by omega)]
      have hd := readFrom_drop st.buffer (LOG_BUFFER_SIZE - c) c st.head hh
      have he : LOG_BUFFER_SIZE - c + c = LOG_BUFFER_SIZE := by omega
      rw [he] at hd
      rw [← hd]
  have hmain : snapshot n st
      = (buildEntries rs s0).drop (rs.length - c) := by
    simp only [snapshot, hminc]
    rw [hkey, h4, List.drop_drop]
    have he3 : rs.length - LOG_BUFFER_SIZE + (st.count - c) = rs.length - c := by
      rw [h2, hc]
      omega
    rw [he3]
  refine ⟨hmain, ?_⟩
  rw [hmain, List.length_drop, buildEntries_length, hc]
  omega

/-- Witness instance for C7 at concrete values. -/
theorem snapshot_most_recent_witness :
    snapshot 2 (processAll [LogReq.mark 0 [1], LogReq.mark 1 [2], LogReq.mark 2 [3]]
        ⟨fun _ => defEntry, 0, 0, 1⟩)
      = (buildEntries [LogReq.mark 0 [1], LogReq.mark 1 [2], LogReq.mark 2 [3]] 1).drop 1 :=
  (snapshot_most_recent [LogReq.mark 0 [1], LogReq.mark 1 [2], LogReq.mark 2 [3]]
    2 (fun _ => defEntry) 1).1

lemma runOps_spec : ∀ (ops : List LogOp) (lg : EventLog),
    (runOps ops lg).2 = List.range' lg.nextSeq (ops.countP isAppendOp) ∧
    (runOps ops lg).1.nextSeq = lg.nextSeq + ops.countP isAppendOp := by
  intro ops
  induction ops with
  | nil => intro lg; exact ⟨rfl, rfl⟩
  | cons op ops ih =>
    intro lg
    cases op with
    | append r =>
      have h1 := ih (applyReq r lg)
      constructor
      · show lg.nextSeq :: (runOps ops (applyReq r lg)).2 = _
        rw [h1.1, applyReq_nextSeq]
        have hcnt : (LogOp.append r :: ops).countP isAppendOp
            = ops.countP isAppendOp + 1 := by
          simp [List.countP_cons, isAppendOp]
        rw [hcnt, List.range'_succ]
      · show (runOps ops (applyReq r lg)).1.nextSeq = _
        rw [h1.2, applyReq_nextSeq]
        have hcnt : (LogOp.append r :: ops).countP isAppendOp
            = ops.countP isAppendOp + 1 := by
          simp [List.countP_cons, isAppendOp]
        rw [hcnt]
        omega
    | reset =>
      have h1 := ih { lg with head := 0, count := 0 }
      have hcnt : (LogOp.reset :: ops).countP isAppendOp
          = ops.countP isAppendOp := by
        simp [List.countP_cons, isAppendOp]
      constructor
      · show (runOps ops { lg with head := 0, count := 0 }).2 = _
        rw [h1.1, hcnt]
      · show (runOps ops { lg with head := 0, count := 0 }).1.nextSeq = _
        rw [h1.2, hcnt]

/-- C2: over any interleaving of appends and resets, the sequence numbers
handed out to appends are consecutive from the starting counter, the final
counter equals the start plus the number of appends, and a reset zeroes
the retained count and head while leaving the next sequence number alone. -/
theorem eventLog_seq_strictly_increasing (ops : List LogOp) (lg : EventLog) :
    (runOps ops lg).2 = List.range' lg.nextSeq (ops.countP isAppendOp) ∧
    (runOps ops lg).1.nextSeq = lg.nextSeq + ops.countP isAppendOp ∧
    ((applyLogOp lg LogOp.reset).1.count = 0 ∧
     (applyLogOp lg LogOp.reset).1.head = 0 ∧
     (applyLogOp lg LogOp.reset).1.nextSeq = lg.nextSeq) :=
  ⟨(runOps_spec ops lg).1, (runOps_spec ops lg).2, rfl, rfl, rfl⟩

/-- Witness for C2: two appends around a reset return 1 then 2. -/
theorem eventLog_seq_strictly_increasing_witness :
    (runOps [LogOp.append (LogReq.mark 0 [1]), LogOp.reset,
             LogOp.append (LogReq.mark 3 [2])]
      ⟨fun _ => defEntry, 0, 0, 1⟩).2 = List.range' 1 2 :=
  (eventLog_seq_strictly_increasing _ _).1

/-! Lemmas about the scan selection loop. -/

lemma repeatRateOf_nonneg (msgs ids : Nat) : 0 ≤ repeatRateOf msgs ids := by
  unfold repeatRateOf
  split_ifs with h
  · positivity
  · exact le_refl 0

lemma scoreOf_nonneg (o : TrialOutcome) : 0 ≤ scoreOf o := by
  cases o with
  | initFail => exact le_refl 0
  | ok m i =>
    simp only [scoreOf]
    split_ifs with h
    · exact mul_nonneg (repeatRateOf_nonneg m i) (by norm_num)
    · exact repeatRateOf_nonneg m i

lemma scanLoop_eq : ∀ (rest : List TrialOutcome) (idx : Nat) (best : Option Nat)
    (bs : ℚ), 0 ≤ bs →
    (scanLoop idx best bs rest).1
      = match selSpec bs rest with
        | some j => some (idx + j)
        | none => best := by
  intro rest
  induction rest with
  | nil => intro idx best bs _; rfl
  | cons o rest ih =>
    intro idx best bs hbs
    cases o with
    | initFail =>
      have hnot : ¬ bs < scoreOf TrialOutcome.initFail := by
        simp only [scoreOf]
        exact not_lt.mpr hbs
      show (scanLoop (idx + 1) best bs rest).1 = _
      rw [ih (idx + 1) best bs hbs]
      simp only [selSpec, if_neg hnot]
      cases hsel : selSpec bs rest with
      | none => simp
      | some j => simp; omega
    | ok m i =>
      simp only [scanLoop, selSpec]
      by_cases hlt : bs < scoreOf (.ok m i)
      · rw [if_pos hlt, if_pos hlt,
          ih (idx + 1) (some idx) (scoreOf (.ok m i)) (scoreOf_nonneg _)]
        cases hsel : selSpec (scoreOf (.ok m i)) rest with
        | none => simp
        | some j => simp; omega
      · rw [if_neg hlt, if_neg hlt, ih (idx + 1) best bs hbs]
        cases hsel : selSpec bs rest with
        | none => simp
        | some j => simp; omega

lemma selSpec_none_iff : ∀ (l : List TrialOutcome) (bs : ℚ),
    selSpec bs l = none ↔ ∀ j, j < l.length → scAt l j ≤ bs := by
  intro l
  induction l with
  | nil => intro bs; simp [selSpec]
  | cons o rest ih =>
    intro bs
    by_cases h : bs < scoreOf o
    · simp only [selSpec, if_pos h]
      constructor
      · intro hc
        exfalso
        cases hsel : selSpec (scoreOf o) rest <;> rw [hsel] at hc <;> simp at hc
      · intro hall
        exact absurd (hall 0 (by simp)) (by simpa [scAt] using h)
    · simp only [selSpec, if_neg h, Option.map_eq_none']
      rw [ih bs]
      constructor
      · intro hall j hj
        cases j with
        | zero => simpa [scAt] using le_of_not_lt h
        | succ j2 => exact hall j2 (by simpa using hj)
      · intro hall j hj
        exact hall (j + 1) (by simpa using hj)

lemma firstBest_unique (l : List TrialOutcome) (bs : ℚ) (i1 i2 : Nat)
    (h1 : FirstBest l bs i1) (h2 : FirstBest l bs i2) : i1 = i2 := by
  rcases Nat.lt_trichotomy i1 i2 with h | h | h
  · have ha := h2.2.2.1 i1 h
    have hb := h1.2.2.2 i2 h h2.1
    exact absurd hb (not_le.mpr ha)
  · exact h
  · have ha := h1.2.2.1 i2 h
    have hb := h2.2.2.2 i1 h h1.1
    exact absurd hb (not_le.mpr ha)

lemma selSpec_some_iff : ∀ (l : List TrialOutcome) (bs : ℚ) (i : Nat),
    selSpec bs l = some i ↔ FirstBest l bs i := by
  intro l
  induction l with
  | nil => intro bs i; simp [selSpec, FirstBest]
  | cons o rest ih =>
    intro bs i
    by_cases h : bs < scoreOf o
    · cases hsel : selSpec (scoreOf o) rest with
      | none =>
        have hall : ∀ j, j < rest.length → scAt rest j ≤ scoreOf o :=
          (selSpec_none_iff rest (scoreOf o)).mp hsel
        have hfb : FirstBest (o :: rest) bs 0 := by
          refine ⟨by simp, by simpa [scAt] using h,
            fun j hj => absurd hj (by omega), ?_⟩
          intro k hk hk2
          cases k with
          | zero => exact absurd hk (by omega)
          | succ k2 =>
            show scAt rest k2 ≤ scoreOf o
            exact hall k2 (by simpa using hk2)
        constructor
        · intro hc
          simp only [selSpec, if_pos h, hsel] at hc
          have hi : i = 0 := by simpa using hc.symm
          subst hi
          exact hfb
        · intro hfb2
          have hi : i = 0 := firstBest_unique _ _ _ _ hfb2 hfb
          subst hi
          simp [selSpec, if_pos h, hsel]
      | some j =>
        have hfbr : FirstBest rest (scoreOf o) j := (ih (scoreOf o) j).mp hsel
        have hfb : FirstBest (o :: rest) bs (j + 1) := by
          refine ⟨by simpa using hfbr.1, ?_, ?_, ?_⟩
          · show bs < scAt rest j
            exact lt_trans h hfbr.2.1
          · intro k hk
            cases k with
            | zero =>
              show scoreOf o < scAt rest j
              exact hfbr.2.1
            | succ k2 =>
              show scAt rest k2 < scAt rest j
              exact hfbr.2.2.1 k2 (by omega)
          · intro k hk hk2
            cases k with
            | zero => exact absurd hk (by omega)
            | succ k2 =>
              show scAt rest k2 ≤ scAt rest j
              exact hfbr.2.2.2 k2 (by omega) (by simpa using hk2)
        constructor
        · intro hc
          simp only [selSpec, if_pos h, hsel] at hc
          have hi : i = j + 1 := by simpa using hc.symm
          subst hi
          exact hfb
        · intro hfb2
          have hi : i = j + 1 := firstBest_unique _ _ _ _ hfb2 hfb
          subst hi
          simp [selSpec, if_pos h, hsel]
    · have hle : scoreOf o ≤ bs := le_of_not_lt h
      cases hsel : selSpec bs rest with
      | none =>
        have hall : ∀ j, j < rest.length → scAt rest j ≤ bs :=
          (selSpec_none_iff rest bs).mp hsel
        constructor
        · intro hc
          simp only [selSpec, if_neg h, hsel] at hc
          simp at hc
        · intro hfb
          exfalso
          rcases Nat.eq_zero_or_pos i with hi | hi
          · subst hi
            exact absurd hfb.2.1 (by simpa [scAt] using not_lt.mpr hle)
          · obtain ⟨i2, rfl⟩ : ∃ i2, i = i2 + 1 := ⟨i - 1, by omega⟩
            have hbound : i2 < rest.length := by
              have hfb1 := hfb.1
              simpa using hfb1
            have hle2 := hall i2 hbound
            have hfb21 : bs < scAt rest i2 := hfb.2.1
            exact absurd hfb21 (not_lt.mpr hle2)
      | some j =>
        have hfbr : FirstBest rest bs j := (ih bs j).mp hsel
        have hfb : FirstBest (o :: rest) bs (j + 1) := by
          refine ⟨by simpa using hfbr.1, hfbr.2.1, ?_, ?_⟩
          · intro k hk
            cases k with
            | zero =>
              show scoreOf o < scAt rest j
              exact lt_of_le_of_lt hle hfbr.2.1
            | succ k2 =>
              show scAt rest k2 < scAt rest j
              exact hfbr.2.2.1 k2 (by omega)
          · intro k hk hk2
            cases k with
            | zero => exact absurd hk (by omega)
            | succ k2 =>
              show scAt rest k2 ≤ scAt rest j
              exact hfbr.2.2.2 k2 (by omega) (by simpa using hk2)
        constructor
        · intro hc
          simp only [selSpec, if_neg h, hsel] at hc
          have hi : i = j + 1 := by simpa using hc.symm
          subst hi
          exact hfb
        · intro hfb2
          have hi : i = j + 1 := firstBest_unique _ _ _ _ hfb2 hfb
          subst hi
          simp [selSpec, if_neg h, hsel]

/-- C3: the score of a completed trial is its repeat rate, multiplied by
one tenth exactly when more than 30 unique identifiers were seen; the
selected candidate is the first one whose score is strictly positive,
strictly above every earlier score and at least every later score (only a
strict comparison replaces the running best, so the first seen wins exact
ties); when no score beats the zero baseline nothing is selected and the
live configuration keeps its prior rate. -/
theorem scan_score_and_selection (outs : List TrialOutcome) (prior : CanBaud) :
    (∀ msgs ids, scoreOf (.ok msgs ids)
        = (if 30 < ids then repeatRateOf msgs ids * (1 / 10)
           else repeatRateOf msgs ids)) ∧
    (∀ i, scanSelect outs = some i ↔
        (i < outs.length ∧ 0 < scAt outs i ∧
         (∀ j, j < i → scAt outs j < scAt outs i) ∧
         (∀ k, i < k → k < outs.length → scAt outs k ≤ scAt outs i))) ∧
    (scanSelect outs = none ↔ ∀ j, j < outs.length → scAt outs j ≤ 0) ∧
    (scanSelect outs = none → scanBestBaud prior outs = prior) ∧
    (∀ i, scanSelect outs = some i →
        scanBestBaud prior outs = scanRates.getD i prior) := by
  have hloop : scanSelect outs
      = match selSpec 0 outs with
        | some j => some (0 + j)
        | none => none := scanLoop_eq outs 0 none 0 le_rfl
  have hsel : ∀ i, scanSelect outs = some i ↔ selSpec 0 outs = some i := by
    intro i
    rw [hloop]
    cases hs : selSpec 0 outs with
    | none => simp
    | some j => simp
  have hnone : scanSelect outs = none ↔ selSpec 0 outs = none := by
    rw [hloop]
    cases hs : selSpec 0 outs with
    | none => simp
    | some j => simp
  refine ⟨fun msgs ids => rfl, ?_, ?_, ?_, ?_⟩
  · intro i
    rw [hsel i, selSpec_some_iff outs 0 i]
    exact Iff.rfl
  · rw [hnone, selSpec_none_iff]
  · intro hn
    simp [scanBestBaud, hn]
  · intro i hi
    simp [scanBestBaud, hi]

/-- Witness for C3: with one failed candidate and one candidate scoring 20,
the second candidate is selected and the live rate becomes its rate. -/
theorem scan_score_and_selection_witness :
    scanBestBaud CanBaud.baud125k [TrialOutcome.initFail, TrialOutcome.ok 120 6]
      = scanRates.getD 1 CanBaud.baud125k :=
  (scan_score_and_selection [TrialOutcome.initFail, TrialOutcome.ok 120 6]
      CanBaud.baud125k).2.2.2.2 1
    (by norm_num [scanSelect, scanLoop, scoreOf, repeatRateOf])

/-- C4: the verdict of a completed trial is NoData exactly when the frame
count is zero, otherwise LikelyCorrect exactly when at most 20 unique
identifiers were seen and the repeat rate strictly exceeds 10, otherwise
Noise exactly when more than 30 unique identifiers were seen, otherwise
Uncertain; the repeat rate is frameCount over uniqueIdCount and zero when
the latter is zero. -/
theorem scan_verdict_classification (msgs ids : Nat) :
    repeatRateOf msgs ids = (if ids = 0 then 0 else (msgs : ℚ) / (ids : ℚ)) ∧
    (verdictOf msgs ids = Verdict.noData ↔ msgs = 0) ∧
    (msgs ≠ 0 →
      (verdictOf msgs ids = Verdict.likelyCorrect
        ↔ (ids ≤ 20 ∧ 10 < repeatRateOf msgs ids))) ∧
    (msgs ≠ 0 → ¬(ids ≤ 20 ∧ 10 < repeatRateOf msgs ids) →
      (verdictOf msgs ids = Verdict.noise ↔ 30 < ids)) ∧
    (msgs ≠ 0 → ¬(ids ≤ 20 ∧ 10 < repeatRateOf msgs ids) → ¬(30 < ids) →
      verdictOf msgs ids = Verdict.uncertain) := by
  refine ⟨?_, ?_, ?_, ?_, ?_⟩
  · unfold repeatRateOf
    by_cases h0 : ids = 0
    · subst h0
      simp
    · by_cases h1 : msgs = 0
      · subst h1
        simp [h0]
      · have hpos : 0 < ids ∧ 0 < msgs :=
          ⟨Nat.pos_of_ne_zero h0, Nat.pos_of_ne_zero h1⟩
        rw [if_pos hpos, if_neg h0]
  · unfold verdictOf
    by_cases h : msgs = 0
    · simp [h]
    · simp only [if_neg h]
      constructor
      · intro hc
        split_ifs at hc
      · intro hh
        exact absurd hh h
  · intro h
    unfold verdictOf
    rw [if_neg h]
    by_cases h2 : ids ≤ 20 ∧ 10 < repeatRateOf msgs ids
    · simp [h2]
    · rw [if_neg h2]
      constructor
      · intro hc
        split_ifs at hc
      · intro hh
        exact absurd hh h2
  · intro h h2
    unfold verdictOf
    rw [if_neg h, if_neg h2]
    by_cases h3 : 30 < ids
    · simp [h3]
    · simp [h3]
  · intro h h2 h3
    unfold verdictOf
    rw [if_neg h, if_neg h2, if_neg h3]

/-- Witness for C4: 120 frames over 6 identifiers is LikelyCorrect. -/
theorem scan_verdict_classification_witness :
    verdictOf 120 6 = Verdict.likelyCorrect :=
  ((scan_verdict_classification 120 6).2.2.1 (by decide)).mpr
    ⟨by decide, by norm_num [repeatRateOf]⟩

/-! Lemmas about the trial polling loops. -/

lemma runTrialSerial_fold : ∀ (evts : List PollEvent) (st : SerialTrial),
    (evts.foldl serialTrialStep st).scanErrCount
      = st.scanErrCount + evts.countP isErrEvt ∧
    (evts.foldl serialTrialStep st).scanMsgCount
      = st.scanMsgCount + evts.countP isFrameEvt := by
  intro evts
  induction evts with
  | nil => intro st; exact ⟨by simp, by simp⟩
  | cons e evts ih =>
    intro st
    cases e with
    | frame id =>
      refine ⟨?_, ?_⟩
      · simp only [List.foldl_cons, serialTrialStep]
        rw [(ih _).1]
        simp [List.countP_cons, isErrEvt]
      · simp only [List.foldl_cons, serialTrialStep]
        rw [(ih _).2]
        simp [List.countP_cons, isFrameEvt]
        omega
    | recvError =>
      refine ⟨?_, ?_⟩
      · simp only [List.foldl_cons, serialTrialStep]
        rw [(ih _).1]
        simp [List.countP_cons, isErrEvt]
        omega
      · simp only [List.foldl_cons, serialTrialStep]
        rw [(ih _).2]
        simp [List.countP_cons, isFrameEvt]
    | idle =>
      refine ⟨?_, ?_⟩
      · simp only [List.foldl_cons, serialTrialStep]
        rw [(ih _).1]
        simp [List.countP_cons, isErrEvt]
      · simp only [List.foldl_cons, serialTrialStep]
        rw [(ih _).2]
        simp [List.countP_cons, isFrameEvt]

lemma runTrialWifi_fold : ∀ (evts : List PollEvent) (st : WifiTrial),
    (evts.foldl wifiTrialStep st).scanMsgCount
      = st.scanMsgCount + evts.countP isFrameEvt := by
  intro evts
  induction evts with
  | nil => intro st; simp
  | cons e evts ih =>
    intro st
    cases e with
    | frame id =>
      simp only [List.foldl_cons, wifiTrialStep]
      rw [ih _]
      simp [List.countP_cons, isFrameEvt]
      omega
    | recvError =>
      simp only [List.foldl_cons, wifiTrialStep]
      rw [ih _]
      simp [List.countP_cons, isFrameEvt]
    | idle =>
      simp only [List.foldl_cons, wifiTrialStep]
      rw [ih _]
      simp [List.countP_cons, isFrameEvt]

lemma trial_ids_eq : ∀ (evts : List PollEvent) (l : List (Nat × Nat))
    (m k m2 : Nat),
    (evts.foldl wifiTrialStep { scanIds := l, scanMsgCount := m2 }).scanIds
      = (evts.foldl serialTrialStep
          { scanIds := l, scanMsgCount := m, scanErrCount := k }).scanIds := by
  intro evts
  induction evts with
  | nil => intro l m k m2; rfl
  | cons e evts ih =>
    intro l m k m2
    cases e with
    | frame id => exact ih (trackScanId id l) (m + 1) k (m2 + 1)
    | recvError => exact ih l m (k + 1) m2
    | idle => exact ih l m k m2

/-- C8 counterexample: in the wifi handleScan a receive error leaves the
whole trial state unchanged, so no trial scoped error counter exists to be
incremented there, while the serial autoScan does count it. -/
theorem wifi_trial_error_invisible_cx :
    runTrialWifi [PollEvent.recvError] = runTrialWifi [] ∧
    (runTrialSerial [PollEvent.recvError]).scanErrCount
      = (runTrialSerial []).scanErrCount + 1 :=
  ⟨rfl, rfl⟩

/-- C8 amended: in the serial autoScan every receive error increments the
trial scoped scanErrCount and the trial keeps polling, counting all frames
around errors; the wifi handleScan likewise keeps polling to the end of
the window but ignores receive errors entirely (no error counter), its
frame count and identifier samples matching the serial trial on the same
event sequence. -/
theorem trial_error_handling_variants (evts : List PollEvent) :
    (runTrialSerial evts).scanErrCount = evts.countP isErrEvt ∧
    (runTrialSerial evts).scanMsgCount = evts.countP isFrameEvt ∧
    (runTrialWifi evts).scanMsgCount = evts.countP isFrameEvt ∧
    (runTrialWifi evts).scanIds = (runTrialSerial evts).scanIds := by
  obtain ⟨h1, h2⟩ := runTrialSerial_fold evts ⟨[], 0, 0⟩
  have h3 := runTrialWifi_fold evts ⟨[], 0⟩
  have h4 := trial_ids_eq evts [] 0 0 0
  exact ⟨by simpa [runTrialSerial] using h1,
         by simpa [runTrialSerial] using h2,
         by simpa [runTrialWifi] using h3,
         by simpa [runTrialWifi, runTrialSerial] using h4⟩

/-- C5 counterexample: the wifi handleBaud switches the rate but leaves the
identifier table, event log and counters exactly as they were; nothing is
reset. -/
theorem handleBaud_no_reset_cx :
    (handleBaud 1 exState).currentBaud = CanBaud.baud125k ∧
    (handleBaud 1 exState).table
      = [{ identifier := 3, occurrences := 5, lastPayload := zeros8 }] ∧
    (handleBaud 1 exState).table ≠ [] ∧
    (handleBaud 1 exState).log.count = 7 ∧
    (handleBaud 1 exState).messageCount = 9 ∧
    (handleBaud 1 exState).errorCount = 2 :=
  ⟨rfl, rfl, by decide, rfl, rfl, rfl⟩

/-- C5 amended: in the serial variant every manual rate command and every
scan that selects a winning rate runs clearCounts, emptying the identifier
table and zeroing the message and error counters; in the wifi variant both
handleBaud and the scan only re-arm the transceiver and leave the live
identifier table, event log and counters untouched (reset happens only via
the separate clear request). -/
theorem rate_change_reset_variants (b : CanBaud) (v : Nat)
    (sst : SerialState) (wst : SysState) (outs : List TrialOutcome) :
    ((serialSetBaud b sst).seenIds = [] ∧
     (serialSetBaud b sst).messageCount = 0 ∧
     (serialSetBaud b sst).errorCount = 0 ∧
     (serialSetBaud b sst).currentBaud = b) ∧
    (∀ i, scanSelect outs = some i →
      (serialAutoScan outs sst).seenIds = [] ∧
      (serialAutoScan outs sst).messageCount = 0 ∧
      (serialAutoScan outs sst).errorCount = 0 ∧
      (serialAutoScan outs sst).currentBaud = scanRates.getD i sst.currentBaud) ∧
    (scanSelect outs = none → serialAutoScan outs sst = sst) ∧
    ((handleBaud v wst).table = wst.table ∧
     (handleBaud v wst).log = wst.log ∧
     (handleBaud v wst).messageCount = wst.messageCount ∧
     (handleBaud v wst).errorCount = wst.errorCount) ∧
    ((handleScanWifi outs wst).table = wst.table ∧
     (handleScanWifi outs wst).log = wst.log ∧
     (handleScanWifi outs wst).messageCount = wst.messageCount ∧
     (handleScanWifi outs wst).errorCount = wst.errorCount) := by
  refine ⟨⟨rfl, rfl, rfl, rfl⟩, ?_, ?_, ⟨rfl, rfl, rfl, rfl⟩,
    ⟨rfl, rfl, rfl, rfl⟩⟩
  · intro i hi
    simp [serialAutoScan, hi, clearCounts]
  · intro hn
    simp [serialAutoScan, hn]

/-- Witness for C5 as amended: a serial scan that selects candidate 1
clears the table and switches the rate. -/
theorem rate_change_reset_variants_witness :
    (serialAutoScan [TrialOutcome.initFail, TrialOutcome.ok 120 6]
        ⟨CanBaud.baud125k, [(3, 5)], 9, 2⟩).seenIds = [] ∧
    (serialAutoScan [TrialOutcome.initFail, TrialOutcome.ok 120 6]
        ⟨CanBaud.baud125k, [(3, 5)], 9, 2⟩).currentBaud
      = scanRates.getD 1 CanBaud.baud125k :=
  let h := (rate_change_reset_variants CanBaud.baud250k 1
      ⟨CanBaud.baud125k, [(3, 5)], 9, 2⟩ exState
      [TrialOutcome.initFail, TrialOutcome.ok 120 6]).2.1 1
      (by norm_num [scanSelect, scanLoop, scoreOf, repeatRateOf])
  ⟨h.1, h.2.2.2⟩

lemma addMarkToLog_spec (now : Nat) (t : List Nat) (lg : EventLog) :
    (addMarkToLog now t lg).nextSeq = lg.nextSeq + 1 ∧
    (addMarkToLog now t lg).head = (lg.head + 1) % LOG_BUFFER_SIZE ∧
    (addMarkToLog now t lg).buffer lg.head = entryOf (.mark now t) lg.nextSeq := by
  refine ⟨rfl, rfl, ?_⟩
  show (if lg.head = lg.head then entryOf (LogReq.mark now t) lg.nextSeq
      else lg.buffer lg.head) = entryOf (LogReq.mark now t) lg.nextSeq
  rw [if_pos rfl]

/-- C10 counterexample: for the supplied text consisting of a space then
the letter a, the stored annotation is the trimmed single byte, not the
first 39 bytes of the supplied text. -/
theorem mark_stores_trimmed_cx :
    trimBytes [32, 97] = [97] ∧
    ((handleMark (some [32, 97]) 0 initSys).log.buffer 0).markText = [97] ∧
    ([97] : List Nat) ≠ ([32, 97] : List Nat).take 39 := by
  refine ⟨by decide, by decide, by decide⟩

/-- C10 amended: a mark request whose text trims to nothing appends no
entry and consumes no sequence number; otherwise exactly one entry is
appended whose stored text is the first 39 bytes of the trimmed text, so
longer annotations are silently truncated to 39 bytes, with the mark flag
set and one sequence number consumed. -/
theorem mark_trim_truncate (msg : List Nat) (now : Nat) (st : SysState) :
    (handleMark none now st = st) ∧
    (trimBytes msg = [] → handleMark (some msg) now st = st) ∧
    (trimBytes msg ≠ [] →
      ((handleMark (some msg) now st).log.nextSeq = st.log.nextSeq + 1 ∧
       (handleMark (some msg) now st).log.head
         = (st.log.head + 1) % LOG_BUFFER_SIZE ∧
       ((handleMark (some msg) now st).log.buffer st.log.head).markText
         = (trimBytes msg).take 39 ∧
       ((handleMark (some msg) now st).log.buffer st.log.head).isMark = true ∧
       ((handleMark (some msg) now st).log.buffer st.log.head).seq
         = st.log.nextSeq)) := by
  refine ⟨rfl, ?_, ?_⟩
  · intro h
    simp [handleMark, h]
  · intro h
    have hlen : 0 < (trimBytes msg).length := by
      cases hc : trimBytes msg with
      | nil => exact absurd hc h
      | cons a l => simp
    simp only [handleMark, if_pos hlen]
    obtain ⟨e1, e2, e3⟩ := addMarkToLog_spec now (trimBytes msg) st.log
    exact ⟨e1, e2, by rw [e3]; rfl, by rw [e3]; rfl, by rw [e3]; rfl⟩

/-- Witness for C10 as amended: a 45 byte annotation is stored truncated to
its first 39 bytes and consumes one sequence number. -/
theorem mark_trim_truncate_witness :
    ((handleMark (some (List.replicate 45 97)) 7 initSys).log.buffer 0).markText
      = (trimBytes (List.replicate 45 97)).take 39 ∧
    (handleMark (some (List.replicate 45 97)) 7 initSys).log.nextSeq = 1 + 1 :=
  let h := (mark_trim_truncate (List.replicate 45 97) 7 initSys).2.2 (by decide)
  ⟨h.2.2.1, h.1⟩
